import Mathlib

/-!
# Parallel breadth-first cube search: embedding and properties

Shallow embedding of `FInal Solution code.cpp` (cube model, `rotateFace`,
`isCubeSolved`, the worker loop and the partition/aggregation code of
`solveCube`) and of the search loop of `ParallalRubiksProblem.cpp`.

* Vectors are lists; an index outside a vector (undefined in C++) reads a
  default value and writes nothing.
* The worker threads of `solveCube` are a list of per-thread control points.
  Every block the source runs under `mtx` is one atomic step, the thread-local
  work just before it is folded into that step, and a schedule (the list of
  thread indices in the order they move) fixes one interleaving.
* `front()`/`pop()` on an empty `std::queue` is undefined in C++. A worker that
  reaches such a call sets the flag `faulted` and the run stops there: no later
  step changes the state.
-/

namespace Rubik

/-! ## Cube model (`FInal Solution code.cpp`) -/

/-- Cube state: `struct Cube` with its `faces[face][row][column]` vector. -/
structure Cube where
  faces : List (List (List Int))
deriving DecidableEq

/-- A default-constructed `Cube` has no faces. -/
instance : Inhabited Cube := ⟨⟨[]⟩⟩

/-- The cell `cube.faces[face][i][j]`. -/
def Cube.cell (cube : Cube) (face i j : Nat) : Int :=
  ((cube.faces.getD face []).getD i []).getD j 0

/-- The double loop of `rotateFace` on one face: every cell `(i, j)` with
`i, j < size` receives `temp[size - j - 1][i]`, read from the copy `temp`. -/
def rotatedGrid (temp : List (List Int)) (size : Nat) : List (List Int) :=
  temp.mapIdx fun i row =>
    if i < size then
      row.mapIdx fun j old =>
        if j < size then (temp.getD (size - j - 1) []).getD i 0 else old
    else row

/-- The cube left in place by `rotateFace(cube, face, size)`. -/
def rotateFace (cube : Cube) (face size : Nat) : Cube :=
  { faces := cube.faces.set face (rotatedGrid (cube.faces.getD face []) size) }

/-- The label returned next to the face id by `rotateFace`. -/
def rotationDirection (size : Nat) : String :=
  if size % 2 = 0 then "RIGHT" else "LEFT"

/-- The function `isCubeSolved`: the first cell that differs from
`faces[face][0][0]` makes it return false. -/
def isCubeSolved (cube : Cube) : Bool :=
  let size := (cube.faces.getD 0 []).length
  let numFaces := cube.faces.length
  (List.range numFaces).all fun face =>
    let firstColor := cube.cell face 0 0
    (List.range size).all fun i =>
      (List.range size).all fun j => cube.cell face i j == firstColor

/-! ## Cube model of the mockup (`ParallalRubiksProblem.cpp`) -/

/-- The constant `NUM_FACES`. -/
def NUM_FACES : Nat := 10

/-- The constant `NUM_MOVES`. -/
def NUM_MOVES : Nat := 12

/-- The constant `CUBE_SIZE`. -/
def CUBE_SIZE : Nat := 10

/-- The constant `NUM_CUBES`. -/
def NUM_CUBES : Nat := CUBE_SIZE * CUBE_SIZE * CUBE_SIZE

/-- Mockup cube: `std::vector<Color> faces[NUM_FACES]`, colours as their
integer values. -/
structure MockCube where
  faces : List (List Nat)
deriving DecidableEq

instance : Inhabited MockCube := ⟨⟨List.replicate NUM_FACES []⟩⟩

/-- The function `initCube`: face `i` is `NUM_CUBES` cells of colour `i`. -/
def initCube : MockCube :=
  { faces := (List.range NUM_FACES).map fun i => List.replicate NUM_CUBES i }

/-- The function `isSolved` of the mockup: cells `1 .. NUM_CUBES - 1` of every
face are compared with cell `0`. -/
def isSolved (cube : MockCube) : Bool :=
  (List.range NUM_FACES).all fun face =>
    let firstColor := (cube.faces.getD face []).getD 0 0
    (List.range' 1 (NUM_CUBES - 1)).all fun i =>
      (cube.faces.getD face []).getD i 0 == firstColor

/-- The table `ROTATIONS`. -/
def ROTATIONS : List (List Nat) :=
  [[0, 1, 3, 2], [0, 1, 5, 4], [1, 3, 7, 5], [3, 2, 6, 7],
   [2, 0, 4, 6], [4, 5, 7, 6], [0, 2, 3, 1], [0, 4, 5, 1],
   [2, 3, 7, 6], [0, 1, 5, 4], [1, 3, 7, 5], [2, 0, 4, 6]]

/-- The mockup's `rotateFace`: cell `i < NUM_CUBES` of the face receives
`temp[ROTATIONS[face][i]]`. In the source every call is undefined: `i` runs to
`NUM_CUBES` while a row of `ROTATIONS` has four entries, and moves 10 and 11
index `faces` past its end. Here those reads and writes follow the convention
for vectors; the function is only ever passed along, never evaluated. -/
def MockCube.rotateFace (cube : MockCube) (face : Nat) : MockCube :=
  { faces := cube.faces.set face
      ((cube.faces.getD face []).mapIdx fun i old =>
        if i < NUM_CUBES then
          (cube.faces.getD face []).getD ((ROTATIONS.getD face []).getD i 0) 0
        else old) }

/-! ## The search loop of `solveCube` -/

/-- What the worker loop is run with: the number of moves tried per expansion
(`numFaces`, `NUM_MOVES` in the mockup), the move, the solved test, the loop
guard (`while (true)` in the final code, `while (!solved)` in the mockup), and
whether the loop has the third queue `rotationQueue` (the final code has it,
the mockup has only `q` and `moveQueue`). -/
structure Solver (σ : Type) where
  numFaces : Nat
  rotateFace : σ → Nat → σ
  isCubeSolved : σ → Bool
  stopWhenSolved : Bool
  hasRotationQueue : Bool

/-- The final program's instance: `size` and `numFaces` are read off the start
cube at the top of `solveCube`. -/
def cubeSolver (startCube : Cube) : Solver Cube :=
  { numFaces := startCube.faces.length
    rotateFace := fun cube face => rotateFace cube face (startCube.faces.getD 0 []).length
    isCubeSolved := isCubeSolved
    stopWhenSolved := false
    hasRotationQueue := true }

/-- The mockup's instance: `NUM_MOVES` moves per expansion, the guard
`while (!solved)`, no `rotationQueue`. -/
def mockSolver : Solver MockCube :=
  { numFaces := NUM_MOVES
    rotateFace := MockCube.rotateFace
    isCubeSolved := isSolved
    stopWhenSolved := true
    hasRotationQueue := false }

/-- Control point and locals of one worker thread. -/
inductive Worker (σ : Type) where
  /-- At the head of the `while` loop. -/
  | top : Worker σ
  /-- Just dequeued `cube`, `steps`, `rotations`; about to test the cube. -/
  | holding (cube : σ) (steps rotations : List Nat) : Worker σ
  /-- In the `for` loop over faces, about to handle `face`. -/
  | expanding (cube : σ) (steps rotations : List Nat) (face : Nat) : Worker σ
  /-- Left the loop through a `break`. -/
  | done : Worker σ
deriving DecidableEq

/-- The entry a worker has dequeued and not yet finished with. -/
def Worker.held {σ : Type} : Worker σ → Option (σ × List Nat)
  | .holding cube steps _ => some (cube, steps)
  | .expanding cube steps _ _ => some (cube, steps)
  | _ => none

/-- The variables the worker threads share and the workers themselves, plus
what is not program data: the flag `faulted` (a worker has called
`front()`/`pop()` on an empty queue) and two history lists, every entry pushed
to `q`/`stepQueue` and every entry popped from them, in order. In a loop
without `rotationQueue` that field and the workers' `rotations` are dummies:
nothing tests them. -/
structure State (σ : Type) where
  q : List σ
  stepQueue : List (List Nat)
  rotationQueue : List (List Nat)
  solved : Bool
  solutionCube : σ
  solutionSteps : List Nat
  rotationSteps : List Nat
  workers : List (Worker σ)
  faulted : Bool
  pushed : List (σ × List Nat)
  dequeued : List (σ × List Nat)

/-- The local `startIndex` of `solveCube`, with
`totalNumberOfPossibleCubeStates = 1` and C++ integer division. -/
def startIndex (rank numProcesses : Int) : Int :=
  rank * Int.tdiv 1 numProcesses

/-- The local `endIndex` of `solveCube`. -/
def endIndex (rank numProcesses : Int) : Int :=
  (rank + 1) * Int.tdiv 1 numProcesses

/-- The test `startIndex == 0` that guards the seeding of the queues. -/
def seedsRoot (rank numProcesses : Int) : Bool :=
  startIndex rank numProcesses == 0

/-- State of `solveCube` when the thread pool is created: the queues hold the
root when `startIndex == 0` and nothing otherwise. -/
def initState {σ : Type} [Inhabited σ] (startCube : σ) (numThreads : Nat)
    (rank numProcesses : Int) : State σ :=
  { q := if seedsRoot rank numProcesses then [startCube] else []
    stepQueue := if seedsRoot rank numProcesses then [[]] else []
    rotationQueue := if seedsRoot rank numProcesses then [[]] else []
    solved := false
    solutionCube := default
    solutionSteps := []
    rotationSteps := []
    workers := List.replicate numThreads Worker.top
    faulted := false
    pushed := if seedsRoot rank numProcesses then [(startCube, [])] else []
    dequeued := [] }

/-- The dequeue block would call `front()`/`pop()` on an empty queue:
`stepQueue` is empty, or the loop has a `rotationQueue` and it is empty. -/
def popsEmptyQueue {σ : Type} (S : Solver σ) (s : State σ) : Bool :=
  s.stepQueue.isEmpty || (S.hasRotationQueue && s.rotationQueue.isEmpty)

/-- One atomic step of worker `t`. Nothing moves once the run has faulted.
* `top`: leave when the guard sees `solved` or `q` is empty; else pop the
  queues, which faults when one of the queues popped next to `q` is empty.
* `holding`: record the solution and leave when the cube is solved, else enter
  the `for` loop.
* `expanding`: push the rotated copy and the extended steps (never a rotation
  list), or return to the head of the loop after the last face. -/
def step {σ : Type} (S : Solver σ) (s : State σ) (t : Nat) : State σ :=
  if s.faulted then s
  else
    match s.workers[t]? with
    | none => s
    | some .done => s
    | some .top =>
      if S.stopWhenSolved && s.solved then
        { s with workers := s.workers.set t .done }
      else
        match s.q with
        | [] => { s with workers := s.workers.set t .done }
        | cube :: rest =>
          if popsEmptyQueue S s then
            { s with faulted := true }
          else
            { s with
              q := rest
              stepQueue := s.stepQueue.tail
              rotationQueue := s.rotationQueue.tail
              workers := s.workers.set t
                (.holding cube (s.stepQueue.headD []) (s.rotationQueue.headD []))
              dequeued := s.dequeued ++ [(cube, s.stepQueue.headD [])] }
    | some (.holding cube steps rotations) =>
      if S.isCubeSolved cube then
        { s with
          solutionCube := cube
          solutionSteps := steps
          rotationSteps := rotations
          solved := true
          workers := s.workers.set t .done }
      else
        { s with workers := s.workers.set t (.expanding cube steps rotations 0) }
    | some (.expanding cube steps rotations face) =>
      if face < S.numFaces then
        { s with
          q := s.q ++ [S.rotateFace cube face]
          stepQueue := s.stepQueue ++ [steps ++ [face]]
          workers := s.workers.set t (.expanding cube steps rotations (face + 1))
          pushed := s.pushed ++ [(S.rotateFace cube face, steps ++ [face])] }
      else
        { s with workers := s.workers.set t .top }

/-- The state reached when the workers move in the order given by `sched`. -/
def run {σ : Type} (S : Solver σ) (s : State σ) (sched : List Nat) : State σ :=
  sched.foldl (step S) s

/-- All workers have left the loop: the `join` loop of `solveCube` returns. -/
def State.terminated {σ : Type} (s : State σ) : Prop :=
  ∀ w ∈ s.workers, w = Worker.done

/-- Replaying a list of face ids on a cube. -/
def replay {σ : Type} (S : Solver σ) (start : σ) (steps : List Nat) : σ :=
  steps.foldl S.rotateFace start

/-- What rank 0 keeps for one process: its `solutionCube`, `solutionSteps` and
`rotationSteps`. -/
structure Candidate (σ : Type) where
  solutionCube : σ
  solutionSteps : List Nat
  rotationSteps : List Nat

/-- The candidate a process holds when its threads have been joined. -/
def candidateOf {σ : Type} (s : State σ) : Candidate σ :=
  { solutionCube := s.solutionCube
    solutionSteps := s.solutionSteps
    rotationSteps := s.rotationSteps }

/-- The vectors `allSolutions`, `allSolutionSteps`, `allRotationSteps`: entry 0
is rank 0's own candidate, entry `i` what was received from rank `i`. -/
def gather {σ : Type} (own : Candidate σ) (received : List (Candidate σ)) :
    List (Candidate σ) :=
  own :: received

/-- The local `bestSolution` at the `return`: it is default-constructed and
the place where it would be chosen from `allSolutions` holds only a comment. -/
def bestSolution {σ : Type} [Inhabited σ] (_allSolutions : List (Candidate σ)) : σ :=
  default

/-- What rank 0 sends to rank `i`: `bestSolution`, then `allSolutionSteps[i]`
and `allRotationSteps[i]`. -/
def sentToRank {σ : Type} [Inhabited σ] (all : List (Candidate σ)) (i : Nat) :
    σ × List Nat × List Nat :=
  (bestSolution all, (all.map Candidate.solutionSteps).getD i [],
    (all.map Candidate.rotationSteps).getD i [])

/-- The value `solveCube` returns on rank 0. -/
def solveCubeRoot {σ : Type} [Inhabited σ] (own : Candidate σ)
    (received : List (Candidate σ)) : σ :=
  bestSolution (gather own received)

/-! ## Concrete inputs -/

/-- The cube `initUserCube(2)` builds when face 0 is entered as
`0 1 / 0 0` and face `k > 0` as four times colour `k`. -/
def mixedCube : Cube :=
  ⟨[[[0, 1], [0, 0]], [[1, 1], [1, 1]], [[2, 2], [2, 2]],
    [[3, 3], [3, 3]], [[4, 4], [4, 4]], [[5, 5], [5, 5]]]⟩

/-- The three other cubes a quarter turn of face 0 makes of `mixedCube`. -/
def mixedCubeTurns : List Cube :=
  [mixedCube,
   ⟨[[[0, 0], [0, 1]], [[1, 1], [1, 1]], [[2, 2], [2, 2]],
     [[3, 3], [3, 3]], [[4, 4], [4, 4]], [[5, 5], [5, 5]]]⟩,
   ⟨[[[0, 0], [1, 0]], [[1, 1], [1, 1]], [[2, 2], [2, 2]],
     [[3, 3], [3, 3]], [[4, 4], [4, 4]], [[5, 5], [5, 5]]]⟩,
   ⟨[[[1, 0], [0, 0]], [[1, 1], [1, 1]], [[2, 2], [2, 2]],
     [[3, 3], [3, 3]], [[4, 4], [4, 4]], [[5, 5], [5, 5]]]⟩]

/-- The cube `initUserCube(2)` builds when face `k` is entered as four times
colour `k`. -/
def solvedCube : Cube :=
  ⟨[[[0, 0], [0, 0]], [[1, 1], [1, 1]], [[2, 2], [2, 2]],
    [[3, 3], [3, 3]], [[4, 4], [4, 4]], [[5, 5], [5, 5]]]⟩

/-- The cell of the old face that `rotateFace` copies into cell `(i, j)`:
`(size - j - 1, i)`, as a permutation of the cell positions. -/
def quarterTurn (size : Nat) : Equiv.Perm (Fin size × Fin size) where
  toFun p := (⟨size - p.2.1 - 1, by have := p.2.2; omega⟩, p.1)
  invFun p := (p.2, ⟨size - p.1.1 - 1, by have := p.1.2; omega⟩)
  left_inv := by
    rintro ⟨i, j⟩
    apply Prod.ext
    · rfl
    · apply Fin.ext
      have := j.2
      simp only
      omega
  right_inv := by
    rintro ⟨i, j⟩
    apply Prod.ext
    · apply Fin.ext
      have := i.2
      simp only
      omega
    · rfl

/-! ## Predicates used in the statements -/

/-- Well-formed cube: at least one face, every face a `size × size` grid,
`size ≥ 1`. -/
def Cube.WellFormed (cube : Cube) (size : Nat) : Prop :=
  1 ≤ size ∧ cube.faces ≠ [] ∧
    ∀ face ∈ cube.faces, face.length = size ∧ ∀ row ∈ face, row.length = size

/-- A list of steps made of face ids the `for` loop can produce. -/
def ValidPath {σ : Type} (S : Solver σ) (steps : List Nat) : Prop :=
  ∀ f ∈ steps, f < S.numFaces

/-- An entry whose cube is the start cube with the entry's steps replayed. -/
def EntryOk {σ : Type} (S : Solver σ) (start : σ) (e : σ × List Nat) : Prop :=
  e.1 = replay S start e.2 ∧ ValidPath S e.2

/-- Invariant of the worker loop: `q` and `stepQueue` are aligned, and every
entry in the queues, in a worker's hands, in the histories or recorded as the
solution is the replay of its steps; a recorded solution is solved. -/
def PairedInv {σ : Type} (S : Solver σ) (start : σ) (s : State σ) : Prop :=
  List.Forall₂ (fun cube steps => EntryOk S start (cube, steps)) s.q s.stepQueue ∧
  (∀ w ∈ s.workers, ∀ e, w.held = some e → EntryOk S start e) ∧
  (∀ e ∈ s.pushed, EntryOk S start e) ∧
  (∀ e ∈ s.dequeued, EntryOk S start e) ∧
  (s.solved = true →
    EntryOk S start (s.solutionCube, s.solutionSteps) ∧
      S.isCubeSolved s.solutionCube = true)

/-- Shape of every state of a run that starts from a solved, seeded root:
nothing has faulted, and the root is still in all three queues with all workers
at the loop head, or `q` is empty and the root is in one worker's hands or
already recorded. -/
def SolvedRootInv {σ : Type} (start : σ) (s : State σ) : Prop :=
  s.faulted = false ∧
  s.pushed = [(start, [])] ∧
  (∀ w ∈ s.workers, w = Worker.top ∨ w = Worker.done ∨
    ∃ r, w = Worker.holding start [] r) ∧
  (s.solved = true → s.solutionSteps = [] ∧ s.solutionCube = start) ∧
  ((s.q = [start] ∧ s.stepQueue = [[]] ∧ s.rotationQueue = [[]] ∧ s.solved = false ∧
      ∀ w ∈ s.workers, w = Worker.top) ∨
   (s.q = [] ∧ (s.solved = true ∨
      ∃ w ∈ s.workers, ∃ r, w = Worker.holding start [] r)))

/-- A worker that will still push or test an entry before it next looks at the
queue. -/
def Worker.active {σ : Type} (S : Solver σ) : Worker σ → Prop
  | .holding _ _ _ => True
  | .expanding _ _ _ face => face < S.numFaces
  | _ => False

/-- Shape of every state of a run in which no solved cube can be reached. -/
def LiveInv {σ : Type} (S : Solver σ) (s : State σ) : Prop :=
  s.solved = false ∧ (∃ w ∈ s.workers, w ≠ Worker.done) ∧
    (s.q ≠ [] ∨ ∃ w ∈ s.workers, w.active S)

/-- Shape of every state of a run whose queues were not seeded. -/
def IdleInv {σ : Type} (s : State σ) : Prop :=
  s.q = [] ∧ s.solved = false ∧ s.pushed = [] ∧
    ∀ w ∈ s.workers, w = Worker.top ∨ w = Worker.done

/-- What the schedule so far has done to each worker of a run that starts from
a solved root: one step takes it off the loop head, two steps end it. -/
def WindDown {σ : Type} (sched : List Nat) (s : State σ) : Prop :=
  ∀ t, (1 ≤ sched.count t → s.workers[t]? ≠ some Worker.top) ∧
    (2 ≤ sched.count t → t < s.workers.length → s.workers[t]? = some Worker.done)

/-- The face a worker's `for` loop will handle next (0 before the loop). -/
def Worker.nextFace {σ : Type} : Worker σ → Nat
  | .expanding _ _ _ face => face
  | _ => 0

/-- Bookkeeping of the steps lists pushed so far, for any number of workers:
they are pairwise different, they are the dequeued ones followed by the queued
ones, the entries in the workers' hands are dequeued and pairwise different,
and the children already pushed for an entry are exactly those of the faces
its worker has passed. -/
def NodupInv {σ : Type} (s : State σ) : Prop :=
  s.q.length = s.stepQueue.length ∧
  (s.pushed.map Prod.snd).Nodup ∧
  s.pushed.map Prod.snd = s.dequeued.map Prod.snd ++ s.stepQueue ∧
  (∀ (i : Nat) (w : Worker σ) (e : σ × List Nat), s.workers[i]? = some w →
    w.held = some e → e.2 ∈ s.dequeued.map Prod.snd) ∧
  (∀ (i j : Nat) (w w' : Worker σ) (e e' : σ × List Nat), i ≠ j →
    s.workers[i]? = some w → s.workers[j]? = some w' →
    w.held = some e → w'.held = some e' → e.2 ≠ e'.2) ∧
  (∀ p ∈ s.stepQueue, ∀ g, p ++ [g] ∉ s.pushed.map Prod.snd) ∧
  (∀ (i : Nat) (w : Worker σ) (e : σ × List Nat), s.workers[i]? = some w →
    w.held = some e → ∀ g, e.2 ++ [g] ∈ s.pushed.map Prod.snd → g < w.nextFace) ∧
  (∀ (x : List Nat) (g : Nat), x ++ [g] ∈ s.pushed.map Prod.snd →
    x ∈ s.dequeued.map Prod.snd)

/-! ## Basic facts about `step` and `run` -/

section Machine

variable {σ : Type}

theorem run_concat (S : Solver σ) (s : State σ) (a : List Nat) (t : Nat) :
    run S s (a ++ [t]) = step S (run S s a) t := by
  simp [run, List.foldl_append]

theorem run_cons (S : Solver σ) (s : State σ) (t : Nat) (a : List Nat) :
    run S s (t :: a) = run S (step S s t) a := rfl

/-- Case analysis on one step: the eight things a worker can do. -/
theorem step_cases (S : Solver σ) (s : State σ) (t : Nat) (P : State σ → Prop)
    (hskip : (s.faulted = true ∨ s.workers[t]? = none ∨ s.workers[t]? = some .done) → P s)
    (hexit : s.faulted = false → s.workers[t]? = some .top →
      ((S.stopWhenSolved = true ∧ s.solved = true) ∨ s.q = []) →
      P { s with workers := s.workers.set t .done })
    (hfault : ∀ cube rest, s.faulted = false → s.workers[t]? = some .top →
      s.q = cube :: rest →
      (s.stepQueue = [] ∨ (S.hasRotationQueue = true ∧ s.rotationQueue = [])) →
      P { s with faulted := true })
    (hpop : ∀ cube rest, s.faulted = false → s.workers[t]? = some .top →
      s.q = cube :: rest → s.stepQueue ≠ [] →
      (S.hasRotationQueue = true → s.rotationQueue ≠ []) →
      P { s with
          q := rest
          stepQueue := s.stepQueue.tail
          rotationQueue := s.rotationQueue.tail
          workers := s.workers.set t
            (.holding cube (s.stepQueue.headD []) (s.rotationQueue.headD []))
          dequeued := s.dequeued ++ [(cube, s.stepQueue.headD [])] })
    (hrecord : ∀ cube steps rotations, s.faulted = false →
      s.workers[t]? = some (.holding cube steps rotations) →
      S.isCubeSolved cube = true →
      P { s with
          solutionCube := cube
          solutionSteps := steps
          rotationSteps := rotations
          solved := true
          workers := s.workers.set t .done })
    (hexpand : ∀ cube steps rotations, s.faulted = false →
      s.workers[t]? = some (.holding cube steps rotations) →
      S.isCubeSolved cube = false →
      P { s with workers := s.workers.set t (.expanding cube steps rotations 0) })
    (hpush : ∀ cube steps rotations face, s.faulted = false →
      s.workers[t]? = some (.expanding cube steps rotations face) →
      face < S.numFaces →
      P { s with
          q := s.q ++ [S.rotateFace cube face]
          stepQueue := s.stepQueue ++ [steps ++ [face]]
          workers := s.workers.set t (.expanding cube steps rotations (face + 1))
          pushed := s.pushed ++ [(S.rotateFace cube face, steps ++ [face])] })
    (hloop : ∀ cube steps rotations face, s.faulted = false →
      s.workers[t]? = some (.expanding cube steps rotations face) →
      ¬ face < S.numFaces →
      P { s with workers := s.workers.set t .top }) :
    P (step S s t) := by
  unfold step
  by_cases hft : s.faulted = true
  · rw [if_pos hft]
    exact hskip (Or.inl hft)
  · rw [if_neg hft]
    have hf : s.faulted = false := by simpa using hft
    split
    · next hw => exact hskip (Or.inr (Or.inl hw))
    · next hw => exact hskip (Or.inr (Or.inr hw))
    · next hw =>
      split
      · next hc =>
        simp only [Bool.and_eq_true] at hc
        exact hexit hf hw (Or.inl hc)
      · split
        · next hq => exact hexit hf hw (Or.inr hq)
        · next cube rest hq =>
          split
          · next hp =>
            simp only [popsEmptyQueue, Bool.or_eq_true, Bool.and_eq_true,
              List.isEmpty_iff] at hp
            exact hfault cube rest hf hw hq hp
          · next hp =>
            simp only [popsEmptyQueue, Bool.or_eq_true, Bool.and_eq_true,
              List.isEmpty_iff, not_or, not_and] at hp
            exact hpop cube rest hf hw hq hp.1 hp.2
    · next cube steps rotations hw =>
      split
      · next hc => exact hrecord cube steps rotations hf hw hc
      · next hc => exact hexpand cube steps rotations hf hw (by simpa using hc)
    · next cube steps rotations face hw =>
      split
      · next hc => exact hpush cube steps rotations face hf hw hc
      · next hc => exact hloop cube steps rotations face hf hw hc

/-- A property kept by every step holds after every schedule. -/
theorem run_invariant (S : Solver σ) (P : State σ → Prop)
    (hstep : ∀ s t, P s → P (step S s t)) (s : State σ) (h : P s) (sched : List Nat) :
    P (run S s sched) := by
  induction sched generalizing s with
  | nil => exact h
  | cons t rest ih => exact ih _ (hstep s t h)

theorem mem_of_getElem?_eq_some {α : Type} {l : List α} {t : Nat} {a : α}
    (h : l[t]? = some a) : a ∈ l := by
  obtain ⟨ht, rfl⟩ := List.getElem?_eq_some.mp h
  exact List.getElem_mem ht

/-- An element other than the one replaced survives `set`. -/
theorem mem_set_of_ne {α : Type} {l : List α} {t : Nat} {a b x : α}
    (hx : x ∈ l) (ht : l[t]? = some a) (hne : x ≠ a) : x ∈ l.set t b := by
  obtain ⟨i, hi, rfl⟩ := List.getElem_of_mem hx
  have hit : t ≠ i := by
    rintro rfl
    rw [List.getElem?_eq_getElem hi] at ht
    exact hne (Option.some.inj ht)
  have : (l.set t b)[i]? = some l[i] := by
    rw [List.getElem?_set_ne hit, List.getElem?_eq_getElem hi]
  exact mem_of_getElem?_eq_some this

theorem mem_set_self {α : Type} {l : List α} {t : Nat} {a b : α}
    (ht : l[t]? = some a) : b ∈ l.set t b := by
  obtain ⟨h, _⟩ := List.getElem?_eq_some.mp ht
  exact mem_of_getElem?_eq_some (List.getElem?_set_self h)

end Machine

/-! ## The pairing invariant -/

section Paired

variable {σ : Type}

theorem forall_mem_set {α : Type} {Q : α → Prop} {l : List α} (t : Nat) {x : α}
    (h : ∀ w ∈ l, Q w) (hx : Q x) : ∀ w ∈ l.set t x, Q w := by
  intro w hw
  rcases List.mem_or_eq_of_mem_set hw with hm | rfl
  · exact h w hm
  · exact hx

theorem replay_concat (S : Solver σ) (start : σ) (steps : List Nat) (face : Nat) :
    replay S start (steps ++ [face]) = S.rotateFace (replay S start steps) face := by
  simp [replay, List.foldl_append]

theorem entryOk_child (S : Solver σ) (start : σ) {cube : σ} {steps : List Nat} {face : Nat}
    (h : EntryOk S start (cube, steps)) (hf : face < S.numFaces) :
    EntryOk S start (S.rotateFace cube face, steps ++ [face]) := by
  obtain ⟨h1, h2⟩ := h
  refine ⟨?_, ?_⟩
  · simp only [replay_concat]
    simp only at h1
    rw [← h1]
  · intro f hfm
    rcases List.mem_append.mp hfm with hm | hm
    · exact h2 f hm
    · simp only [List.mem_singleton] at hm
      rw [hm]; exact hf

theorem pairedInv_step (S : Solver σ) (start : σ) (s : State σ) (t : Nat)
    (h : PairedInv S start s) : PairedInv S start (step S s t) := by
  obtain ⟨hq, hw, hp, hd, hs⟩ := h
  apply step_cases
  · exact fun _ => ⟨hq, hw, hp, hd, hs⟩
  · intro _ _ _
    exact ⟨hq, forall_mem_set t hw (by intro e he; cases he), hp, hd, hs⟩
  · intro _ _ _ _ _ _
    exact ⟨hq, hw, hp, hd, hs⟩
  · intro cube rest _ _ hqe _ _
    rw [hqe] at hq
    obtain ⟨steps, srest, hhead, htail, hsq⟩ := List.forall₂_cons_left_iff.mp hq
    simp only [hsq, List.tail_cons, List.headD_cons]
    refine ⟨htail, forall_mem_set t hw ?_, hp, ?_, hs⟩
    · intro e he
      simp only [Worker.held, Option.some.injEq] at he
      rw [← he]; exact hhead
    · intro e he
      rcases List.mem_append.mp he with hm | hm
      · exact hd e hm
      · simp only [List.mem_singleton] at hm
        rw [hm]; exact hhead
  · intro cube steps rotations _ hwt hc
    have hok := hw _ (mem_of_getElem?_eq_some hwt) (cube, steps) rfl
    exact ⟨hq, forall_mem_set t hw (by intro e he; cases he), hp, hd, fun _ => ⟨hok, hc⟩⟩
  · intro cube steps rotations _ hwt _
    have hok := hw _ (mem_of_getElem?_eq_some hwt) (cube, steps) rfl
    refine ⟨hq, forall_mem_set t hw ?_, hp, hd, hs⟩
    intro e he
    simp only [Worker.held, Option.some.injEq] at he
    rw [← he]; exact hok
  · intro cube steps rotations face _ hwt hf
    have hok := hw _ (mem_of_getElem?_eq_some hwt) (cube, steps) rfl
    have hchild := entryOk_child S start hok hf
    refine ⟨?_, forall_mem_set t hw ?_, ?_, hd, hs⟩
    · exact List.rel_append hq (List.Forall₂.cons hchild List.Forall₂.nil)
    · intro e he
      simp only [Worker.held, Option.some.injEq] at he
      rw [← he]; exact hok
    · intro e he
      rcases List.mem_append.mp he with hm | hm
      · exact hp e hm
      · simp only [List.mem_singleton] at hm
        rw [hm]; exact hchild
  · intro cube steps rotations face _ _ _
    exact ⟨hq, forall_mem_set t hw (by intro e he; cases he), hp, hd, hs⟩

theorem entryOk_root (S : Solver σ) (start : σ) : EntryOk S start (start, []) :=
  ⟨rfl, by intro f hf; cases hf⟩

theorem pairedInv_init [Inhabited σ] (S : Solver σ) (start : σ) (numThreads : Nat)
    (rank numProcesses : Int) :
    PairedInv S start (initState start numThreads rank numProcesses) := by
  unfold initState
  refine ⟨?_, ?_, ?_, ?_, ?_⟩
  · by_cases hseed : seedsRoot rank numProcesses = true
    · simp only [hseed, if_true]
      exact List.Forall₂.cons (entryOk_root S start) List.Forall₂.nil
    · simp only [hseed]
      exact List.Forall₂.nil
  · intro w hw e he
    rw [List.eq_of_mem_replicate hw] at he
    cases he
  · intro e he
    by_cases hseed : seedsRoot rank numProcesses = true
    · simp only [hseed, if_true, List.mem_singleton] at he
      rw [he]; exact entryOk_root S start
    · simp [hseed] at he
  · intro e he
    cases he
  · intro h
    cases h

theorem pairedInv_run [Inhabited σ] (S : Solver σ) (start : σ) (numThreads : Nat)
    (rank numProcesses : Int) (sched : List Nat) :
    PairedInv S start (run S (initState start numThreads rank numProcesses) sched) :=
  run_invariant S (PairedInv S start) (fun s t h => pairedInv_step S start s t h) _
    (pairedInv_init S start numThreads rank numProcesses) sched

end Paired

/-! ## The cube: `rotateFace` and `isCubeSolved` -/

section CubeFacts

theorem isCubeSolved_iff_cell (cube : Cube) :
    isCubeSolved cube = true ↔
      ∀ face < cube.faces.length, ∀ i < (cube.faces.getD 0 []).length,
        ∀ j < (cube.faces.getD 0 []).length, cube.cell face i j = cube.cell face 0 0 := by
  simp [isCubeSolved, List.all_eq_true, List.mem_range]

theorem Cube.WellFormed.size_eq {cube : Cube} {size : Nat} (h : cube.WellFormed size) :
    (cube.faces.getD 0 []).length = size := by
  obtain ⟨_, hne, hall⟩ := h
  cases hf : cube.faces with
  | nil => exact absurd hf hne
  | cons a l =>
    have := (hall a (by simp [hf])).1
    simpa using this

theorem Cube.WellFormed.face_length {cube : Cube} {size : Nat} (h : cube.WellFormed size)
    {f : Nat} (hf : f < cube.faces.length) : (cube.faces.getD f []).length = size := by
  have hm : cube.faces[f] ∈ cube.faces := List.getElem_mem _
  have := (h.2.2 _ hm).1
  simpa [List.getD_eq_getElem?_getD, List.getElem?_eq_getElem hf] using this

theorem Cube.WellFormed.row_length {cube : Cube} {size : Nat} (h : cube.WellFormed size)
    {f i : Nat} (hf : f < cube.faces.length) (hi : i < size) :
    ((cube.faces.getD f []).getD i []).length = size := by
  have hm : cube.faces[f] ∈ cube.faces := List.getElem_mem _
  obtain ⟨hl, hr⟩ := h.2.2 _ hm
  have hi2 : i < (cube.faces[f]).length := by omega
  have := hr _ (List.getElem_mem hi2)
  simpa [List.getD_eq_getElem?_getD, List.getElem?_eq_getElem hf,
    List.getElem?_eq_getElem hi2] using this

theorem cell_rotatedGrid (temp : List (List Int)) (size i j : Nat)
    (hi : i < size) (hj : j < size) (hl : i < temp.length)
    (hr : j < (temp.getD i []).length) :
    ((rotatedGrid temp size).getD i []).getD j 0
      = (temp.getD (size - j - 1) []).getD i 0 := by
  simp only [List.getD_eq_getElem?_getD] at hr ⊢
  simp only [rotatedGrid, List.getElem?_mapIdx]
  rw [List.getElem?_eq_getElem hl] at hr ⊢
  simp only [Option.map_some', Option.getD_some, hi, if_true] at hr ⊢
  simp only [List.getElem?_mapIdx]
  rw [List.getElem?_eq_getElem hr]
  simp [hj]

theorem faces_rotateFace_ne (cube : Cube) (f g size : Nat) (h : g ≠ f) :
    (rotateFace cube f size).faces.getD g [] = cube.faces.getD g [] := by
  simp [rotateFace, List.getD_eq_getElem?_getD, List.getElem?_set_ne (Ne.symm h)]

theorem faces_rotateFace_self (cube : Cube) (f size : Nat) (hf : f < cube.faces.length) :
    (rotateFace cube f size).faces.getD f []
      = rotatedGrid (cube.faces.getD f []) size := by
  simp [rotateFace, List.getD_eq_getElem?_getD, List.getElem?_set_self hf]

theorem length_faces_rotateFace (cube : Cube) (f size : Nat) :
    (rotateFace cube f size).faces.length = cube.faces.length := by
  simp [rotateFace]

theorem rotateFace_of_length_le (cube : Cube) (f size : Nat) (h : cube.faces.length ≤ f) :
    rotateFace cube f size = cube := by
  simp [rotateFace, List.set_eq_of_length_le h]

theorem cell_rotateFace_self {cube : Cube} {size : Nat} (h : cube.WellFormed size)
    {f i j : Nat} (hf : f < cube.faces.length) (hi : i < size) (hj : j < size) :
    (rotateFace cube f size).cell f i j = cube.cell f (size - j - 1) i := by
  unfold Cube.cell
  rw [faces_rotateFace_self cube f size hf]
  apply cell_rotatedGrid _ _ _ _ hi hj
  · rw [h.face_length hf]; exact hi
  · rw [h.row_length hf hi]; exact hj

theorem cell_rotateFace_ne (cube : Cube) {f g : Nat} (size i j : Nat) (h : g ≠ f) :
    (rotateFace cube f size).cell g i j = cube.cell g i j := by
  unfold Cube.cell
  rw [faces_rotateFace_ne cube f g size h]

theorem length_rotatedGrid (temp : List (List Int)) (size : Nat) :
    (rotatedGrid temp size).length = temp.length := by
  simp [rotatedGrid]

theorem row_length_rotatedGrid (temp : List (List Int)) (size n : Nat)
    (h : ∀ row ∈ temp, row.length = n) : ∀ row ∈ rotatedGrid temp size, row.length = n := by
  intro row hrow
  obtain ⟨i, hi, rfl⟩ := List.getElem_of_mem hrow
  have hi2 : i < temp.length := by simpa [rotatedGrid] using hi
  simp only [rotatedGrid, List.getElem_mapIdx]
  split
  · simpa using h _ (List.getElem_mem hi2)
  · exact h _ (List.getElem_mem hi2)

theorem Cube.WellFormed.rotate {cube : Cube} {size : Nat} (h : cube.WellFormed size)
    (f : Nat) : (rotateFace cube f size).WellFormed size := by
  by_cases hf : f < cube.faces.length
  · refine ⟨h.1, ?_, ?_⟩
    · intro hnil
      have := length_faces_rotateFace cube f size
      rw [hnil] at this
      exact h.2.1 (List.length_eq_zero.mp this.symm)
    · intro face hface
      rcases List.mem_or_eq_of_mem_set hface with hm | rfl
      · exact h.2.2 _ hm
      · have hm : cube.faces[f] ∈ cube.faces := List.getElem_mem _
        obtain ⟨hl, hr⟩ := h.2.2 _ hm
        have e : cube.faces.getD f [] = cube.faces[f] := by
          simp [List.getD_eq_getElem?_getD, List.getElem?_eq_getElem hf]
        rw [e]
        exact ⟨by rw [length_rotatedGrid]; exact hl, row_length_rotatedGrid _ _ _ hr⟩
  · rw [rotateFace_of_length_le cube f size (by omega)]
    exact h

theorem isCubeSolved_rotateFace {cube : Cube} {size : Nat} (h : cube.WellFormed size)
    (f : Nat) : isCubeSolved (rotateFace cube f size) = isCubeSolved cube := by
  by_cases hf : f < cube.faces.length
  · have h2 := h.rotate f
    rw [Bool.eq_iff_iff, isCubeSolved_iff_cell, isCubeSolved_iff_cell, h.size_eq, h2.size_eq,
      length_faces_rotateFace]
    have hpos := h.1
    constructor
    · intro hs g hg a ha b hb
      by_cases hgf : g = f
      · subst hgf
        have key : ∀ a b, a < size → b < size →
            cube.cell g a b = (rotateFace cube g size).cell g 0 0 := by
          intro a b ha hb
          have e1 := cell_rotateFace_self h hf hb (show size - a - 1 < size by omega)
          have e2 : size - (size - a - 1) - 1 = a := by omega
          rw [e2] at e1
          rw [← e1]
          exact hs g hf b hb _ (by omega)
        rw [key a b ha hb, key 0 0 (by omega) (by omega)]
      · have := hs g hg a ha b hb
        rwa [cell_rotateFace_ne cube size a b hgf, cell_rotateFace_ne cube size 0 0 hgf] at this
    · intro hs g hg a ha b hb
      by_cases hgf : g = f
      · subst hgf
        rw [cell_rotateFace_self h hf ha hb, cell_rotateFace_self h hf hpos hpos]
        exact (hs g hf (size - b - 1) (by omega) a ha).trans
          (hs g hf (size - 0 - 1) (by omega) 0 (by omega)).symm
      · rw [cell_rotateFace_ne cube size a b hgf, cell_rotateFace_ne cube size 0 0 hgf]
        exact hs g hg a ha b hb
  · rw [rotateFace_of_length_le cube f size (by omega)]

theorem cell_eq_getElem (cube : Cube) {f i j : Nat} (hf : f < cube.faces.length)
    (hi : i < (cube.faces[f]).length) (hj : j < ((cube.faces[f])[i]).length) :
    cube.cell f i j = ((cube.faces[f])[i])[j] := by
  simp [Cube.cell, List.getD_eq_getElem?_getD, List.getElem?_eq_getElem hf,
    List.getElem?_eq_getElem hi, List.getElem?_eq_getElem hj]

/-- On a well-formed cube the test is the same as: every face holds one colour. -/
theorem isCubeSolved_iff_mem {cube : Cube} {size : Nat} (h : cube.WellFormed size) :
    isCubeSolved cube = true ↔
      ∀ face ∈ cube.faces, ∃ color : Int, ∀ row ∈ face, ∀ x ∈ row, x = color := by
  rw [isCubeSolved_iff_cell, h.size_eq]
  constructor
  · intro hs face hface
    obtain ⟨f, hf, rfl⟩ := List.getElem_of_mem hface
    refine ⟨cube.cell f 0 0, ?_⟩
    intro row hrow x hx
    obtain ⟨i, hi, rfl⟩ := List.getElem_of_mem hrow
    obtain ⟨j, hj, rfl⟩ := List.getElem_of_mem hx
    obtain ⟨hl, hr⟩ := h.2.2 _ (List.getElem_mem hf)
    have hjr := hr _ (List.getElem_mem hi)
    rw [← cell_eq_getElem cube hf hi hj]
    exact hs f hf i (by omega) j (by omega)
  · intro hu f hf i hi j hj
    obtain ⟨hl, hr⟩ := h.2.2 _ (List.getElem_mem hf)
    obtain ⟨color, hc⟩ := hu _ (List.getElem_mem hf)
    have hi' : i < (cube.faces[f]).length := by omega
    have h0' : 0 < (cube.faces[f]).length := by have := h.1; omega
    have hj' : j < ((cube.faces[f])[i]).length := by
      rw [hr _ (List.getElem_mem hi')]; exact hj
    have h00 : 0 < ((cube.faces[f])[0]).length := by
      rw [hr _ (List.getElem_mem h0')]; have := h.1; omega
    rw [cell_eq_getElem cube hf hi' hj', cell_eq_getElem cube hf h0' h00]
    rw [hc _ (List.getElem_mem hi') _ (List.getElem_mem hj'),
      hc _ (List.getElem_mem h0') _ (List.getElem_mem h00)]

theorem replay_cubeSolver_wellFormed {start : Cube} {size : Nat}
    (h : start.WellFormed size) (steps : List Nat) :
    (replay (cubeSolver start) start steps).WellFormed size ∧
      isCubeSolved (replay (cubeSolver start) start steps) = isCubeSolved start := by
  induction steps using List.reverseRecOn with
  | nil => exact ⟨h, rfl⟩
  | append_singleton steps f ih =>
    rw [replay_concat]
    have e : (cubeSolver start).rotateFace (replay (cubeSolver start) start steps) f
        = rotateFace (replay (cubeSolver start) start steps) f size := by
      show rotateFace _ f (start.faces.getD 0 []).length = _
      rw [h.size_eq]
    rw [e]
    exact ⟨ih.1.rotate f, (isCubeSolved_rotateFace ih.1 f).trans ih.2⟩

theorem isSolved_initCube : isSolved initCube = true := by
  simp only [isSolved, List.all_eq_true, List.mem_range, List.mem_range', beq_iff_eq]
  intro face hface i hi
  have hrow : initCube.faces.getD face [] = List.replicate NUM_CUBES face := by
    simp [initCube, List.getD_eq_getElem?_getD, List.getElem?_map, List.getElem?_range hface]
  rw [hrow]
  obtain ⟨k, hk, rfl⟩ := hi
  have h1 : 1 + k < NUM_CUBES := by
    simp only [NUM_CUBES, CUBE_SIZE] at hk ⊢
    omega
  have h0 : 0 < NUM_CUBES := by simp [NUM_CUBES, CUBE_SIZE]
  simp [List.getD_eq_getElem?_getD, List.getElem?_replicate, h1, h0]

end CubeFacts

/-! ## Runs from a solved root, from an unsolvable root, from an empty queue -/

section Shape

variable {σ : Type}

theorem step_workers_length (S : Solver σ) (s : State σ) (t : Nat) :
    (step S s t).workers.length = s.workers.length := by
  apply step_cases S s t (fun s' => s'.workers.length = s.workers.length) <;> intros <;> simp

theorem step_workers_ne (S : Solver σ) (s : State σ) (t u : Nat) (h : t ≠ u) :
    (step S s t).workers[u]? = s.workers[u]? := by
  apply step_cases S s t (fun s' => s'.workers[u]? = s.workers[u]?) <;> intros <;>
    simp [List.getElem?_set_ne h]

theorem run_workers_length (S : Solver σ) (s : State σ) (sched : List Nat) :
    (run S s sched).workers.length = s.workers.length := by
  induction sched generalizing s with
  | nil => rfl
  | cons t rest ih => rw [run_cons, ih, step_workers_length]

theorem solvedRootInv_step (S : Solver σ) (start : σ) (hsol : S.isCubeSolved start = true)
    (s : State σ) (t : Nat) (h : SolvedRootInv start s) :
    SolvedRootInv start (step S s t) := by
  obtain ⟨hnf, hp, hw, hs, hshape⟩ := h
  apply step_cases
  · exact fun _ => ⟨hnf, hp, hw, hs, hshape⟩
  · intro _ hwt hex
    refine ⟨hnf, hp, forall_mem_set t hw (Or.inr (Or.inl rfl)), hs, ?_⟩
    rcases hshape with ⟨hq, _, _, hns, _⟩ | ⟨hq, hrest⟩
    · rcases hex with ⟨_, hsv⟩ | hqe
      · rw [hns] at hsv; cases hsv
      · rw [hq] at hqe; cases hqe
    · refine Or.inr ⟨hq, ?_⟩
      rcases hrest with hsv | ⟨w, hwm, r, rfl⟩
      · exact Or.inl hsv
      · exact Or.inr ⟨_, mem_set_of_ne hwm hwt (by simp), r, rfl⟩
  · intro cube rest _ _ hqe hempty
    exfalso
    rcases hshape with ⟨_, hsq, hrq, _, _⟩ | ⟨hq, _⟩
    · rcases hempty with he | ⟨_, he⟩
      · rw [hsq] at he; cases he
      · rw [hrq] at he; cases he
    · rw [hq] at hqe; cases hqe
  · intro cube rest _ hwt hqe _ _
    rcases hshape with ⟨hq, hsq, _, hns, _⟩ | ⟨hq, _⟩
    · rw [hq] at hqe
      obtain ⟨rfl, rfl⟩ := List.cons.inj hqe
      simp only [hsq, List.headD_cons, List.tail_cons]
      refine ⟨hnf, hp, forall_mem_set t hw (Or.inr (Or.inr ⟨_, rfl⟩)), hs,
        Or.inr ⟨rfl, Or.inr ?_⟩⟩
      exact ⟨_, mem_set_self hwt, _, rfl⟩
    · rw [hq] at hqe; cases hqe
  · intro cube steps rotations _ hwt _
    have hmem := mem_of_getElem?_eq_some hwt
    rcases hw _ hmem with h1 | h1 | ⟨r, h1⟩
    · cases h1
    · cases h1
    · cases h1
      refine ⟨hnf, hp, forall_mem_set t hw (Or.inr (Or.inl rfl)), fun _ => ⟨rfl, rfl⟩, ?_⟩
      rcases hshape with ⟨_, _, _, _, hall⟩ | ⟨hq, _⟩
      · have := hall _ hmem; cases this
      · exact Or.inr ⟨hq, Or.inl rfl⟩
  · intro cube steps rotations _ hwt hc
    exfalso
    rcases hw _ (mem_of_getElem?_eq_some hwt) with h1 | h1 | ⟨r, h1⟩
    · cases h1
    · cases h1
    · cases h1
      rw [hsol] at hc; cases hc
  · intro cube steps rotations face _ hwt _
    exfalso
    rcases hw _ (mem_of_getElem?_eq_some hwt) with h1 | h1 | ⟨r, h1⟩ <;> cases h1
  · intro cube steps rotations face _ hwt _
    exfalso
    rcases hw _ (mem_of_getElem?_eq_some hwt) with h1 | h1 | ⟨r, h1⟩ <;> cases h1

theorem solvedRootInv_init [Inhabited σ] (start : σ) (numThreads : Nat)
    (rank numProcesses : Int) (hseed : seedsRoot rank numProcesses = true) :
    SolvedRootInv start (initState start numThreads rank numProcesses) := by
  unfold initState
  simp only [hseed, if_true]
  refine ⟨rfl, rfl, ?_, ?_, Or.inl ⟨rfl, rfl, rfl, rfl, ?_⟩⟩
  · intro w hw
    exact Or.inl (List.eq_of_mem_replicate hw)
  · intro h; cases h
  · intro w hw
    exact List.eq_of_mem_replicate hw

theorem solvedRootInv_run [Inhabited σ] (S : Solver σ) (start : σ)
    (hsol : S.isCubeSolved start = true) (numThreads : Nat) (rank numProcesses : Int)
    (hseed : seedsRoot rank numProcesses = true) (sched : List Nat) :
    SolvedRootInv start (run S (initState start numThreads rank numProcesses) sched) :=
  run_invariant S (SolvedRootInv start) (fun s t h => solvedRootInv_step S start hsol s t h) _
    (solvedRootInv_init start numThreads rank numProcesses hseed) sched

/-- In a run from a solved root a worker that is not at the loop head is done
after its next step, and one at the loop head leaves it. -/
theorem solvedRoot_worker_step (S : Solver σ) (start : σ)
    (hsol : S.isCubeSolved start = true) (s : State σ)
    (t : Nat) (h : SolvedRootInv start s) (ht : t < s.workers.length) :
    (step S s t).workers[t]? ≠ some Worker.top ∧
      (s.workers[t]? ≠ some Worker.top → (step S s t).workers[t]? = some Worker.done) := by
  obtain ⟨hnf, hp, hw, hs, hshape⟩ := h
  have hset : ∀ (ws : List (Worker σ)) (x : Worker σ), ws = s.workers →
      (ws.set t x)[t]? = some x := by
    intro ws x e
    subst e
    exact List.getElem?_set_self ht
  apply step_cases S s t (fun s' => s'.workers[t]? ≠ some Worker.top ∧
      (s.workers[t]? ≠ some Worker.top → s'.workers[t]? = some Worker.done))
  · intro hskip
    rcases hskip with hf | hn | hd
    · rw [hnf] at hf; cases hf
    · rw [List.getElem?_eq_getElem ht] at hn; cases hn
    · rw [hd]; exact ⟨by simp, fun _ => rfl⟩
  · intro _ _ _
    rw [hset _ _ rfl]; exact ⟨by simp, fun _ => rfl⟩
  · intro cube rest _ _ hqe hempty
    exfalso
    rcases hshape with ⟨_, hsq, hrq, _, _⟩ | ⟨hq, _⟩
    · rcases hempty with he | ⟨_, he⟩
      · rw [hsq] at he; cases he
      · rw [hrq] at he; cases he
    · rw [hq] at hqe; cases hqe
  · intro cube rest _ hwt _ _ _
    rw [hset _ _ rfl]; exact ⟨by simp, fun hne => absurd hwt hne⟩
  · intro cube steps rotations _ _ _
    rw [hset _ _ rfl]; exact ⟨by simp, fun _ => rfl⟩
  · intro cube steps rotations _ hwt hc
    exfalso
    rcases hw _ (mem_of_getElem?_eq_some hwt) with h1 | h1 | ⟨r, h1⟩
    · cases h1
    · cases h1
    · cases h1
      rw [hsol] at hc; cases hc
  · intro cube steps rotations face _ hwt _
    exfalso
    rcases hw _ (mem_of_getElem?_eq_some hwt) with h1 | h1 | ⟨r, h1⟩ <;> cases h1
  · intro cube steps rotations face _ hwt _
    exfalso
    rcases hw _ (mem_of_getElem?_eq_some hwt) with h1 | h1 | ⟨r, h1⟩ <;> cases h1

theorem windDown_run [Inhabited σ] (S : Solver σ) (start : σ)
    (hsol : S.isCubeSolved start = true) (numThreads : Nat) (rank numProcesses : Int)
    (hseed : seedsRoot rank numProcesses = true) (sched : List Nat) :
    WindDown sched (run S (initState start numThreads rank numProcesses) sched) := by
  induction sched using List.reverseRecOn with
  | nil =>
    intro t
    simp
  | append_singleton sched u ih =>
    have hinv := solvedRootInv_run S start hsol numThreads rank numProcesses hseed sched
    rw [run_concat]
    intro t
    by_cases htu : u = t
    · subst htu
      by_cases hlen : u < (run S (initState start numThreads rank numProcesses)
          sched).workers.length
      · have hstep := solvedRoot_worker_step S start hsol _ u hinv hlen
        refine ⟨fun _ => hstep.1, fun hc _ => hstep.2 ((ih u).1 ?_)⟩
        simp only [List.count_append, List.count_singleton, beq_self_eq_true, if_true] at hc
        omega
      · have hl2 := step_workers_length S
          (run S (initState start numThreads rank numProcesses) sched) u
        have hnone : (step S (run S (initState start numThreads rank numProcesses)
            sched) u).workers[u]? = none := by
          apply List.getElem?_eq_none
          omega
        refine ⟨fun _ => by rw [hnone]; simp, fun _ hlt => ?_⟩
        omega
    · have hcount : (sched ++ [u]).count t = sched.count t := by
        simp [List.count_append, List.count_singleton, htu]
      rw [hcount, step_workers_ne S _ u t htu, step_workers_length]
      exact ih t

theorem terminated_of_windDown (sched : List Nat) (s : State σ) (h : WindDown sched s)
    (hall : ∀ t < s.workers.length, 2 ≤ sched.count t) : s.terminated := by
  intro w hw
  obtain ⟨i, hi, rfl⟩ := List.getElem_of_mem hw
  have := (h i).2 (hall i hi) hi
  rw [List.getElem?_eq_getElem hi] at this
  exact Option.some.inj this

end Shape

/-! ## Runs from a root with no solved cube in reach -/

section Live

variable {σ : Type}

theorem liveInv_step (S : Solver σ) (start : σ) (hpos : 1 ≤ S.numFaces)
    (hno : ∀ steps, ValidPath S steps → S.isCubeSolved (replay S start steps) = false)
    (s : State σ) (t : Nat) (hpair : PairedInv S start s) (h : LiveInv S s) :
    LiveInv S (step S s t) := by
  obtain ⟨hns, hnd, hact⟩ := h
  have keep : ∀ (w0 x : Worker σ), s.workers[t]? = some w0 → ¬ w0.active S →
      (s.q ≠ [] ∨ ∃ w ∈ s.workers, w.active S) →
      (s.q ≠ [] ∨ ∃ w ∈ s.workers.set t x, w.active S) := by
    intro w0 x hw0 hna hor
    rcases hor with hq | ⟨w, hwm, hwa⟩
    · exact Or.inl hq
    · refine Or.inr ⟨w, mem_set_of_ne hwm hw0 ?_, hwa⟩
      rintro rfl
      exact hna hwa
  apply step_cases
  · exact fun _ => ⟨hns, hnd, hact⟩
  · intro _ hwt hex
    have hq : s.q = [] := by
      rcases hex with ⟨_, hsv⟩ | hq
      · rw [hns] at hsv; cases hsv
      · exact hq
    rcases hact with hne | ⟨w, hwm, hwa⟩
    · exact absurd hq hne
    · have hwne : w ≠ Worker.top := by
        rintro rfl
        exact hwa
      have hmem := mem_set_of_ne (b := Worker.done) hwm hwt hwne
      refine ⟨hns, ⟨w, hmem, ?_⟩, Or.inr ⟨w, hmem, hwa⟩⟩
      rintro rfl
      exact hwa
  · intro _ _ _ _ _ _
    exact ⟨hns, hnd, hact⟩
  · intro cube rest _ hwt _ _ _
    have hmem := mem_set_self (b := Worker.holding cube (s.stepQueue.headD [])
      (s.rotationQueue.headD [])) hwt
    exact ⟨hns, ⟨_, hmem, by simp⟩, Or.inr ⟨_, hmem, trivial⟩⟩
  · intro cube steps rotations _ hwt hc
    exfalso
    have hok := hpair.2.1 _ (mem_of_getElem?_eq_some hwt) (cube, steps) rfl
    have := hno steps hok.2
    rw [← hok.1] at this
    simp only at this
    rw [hc] at this
    cases this
  · intro cube steps rotations _ hwt _
    have hmem := mem_set_self (b := Worker.expanding cube steps rotations 0) hwt
    exact ⟨hns, ⟨_, hmem, by simp⟩, Or.inr ⟨_, hmem, hpos⟩⟩
  · intro cube steps rotations face _ hwt _
    have hmem := mem_set_self (b := Worker.expanding cube steps rotations (face + 1)) hwt
    exact ⟨hns, ⟨_, hmem, by simp⟩, Or.inl (by simp)⟩
  · intro cube steps rotations face _ hwt hf
    have hmem := mem_set_self (b := Worker.top) hwt
    exact ⟨hns, ⟨_, hmem, by simp⟩, keep _ _ hwt hf hact⟩

theorem liveInv_init [Inhabited σ] (S : Solver σ) (start : σ) (numThreads : Nat)
    (hT : 1 ≤ numThreads) (rank numProcesses : Int)
    (hseed : seedsRoot rank numProcesses = true) :
    LiveInv S (initState start numThreads rank numProcesses) := by
  unfold initState
  simp only [hseed, if_true]
  refine ⟨rfl, ⟨Worker.top, ?_, by simp⟩, Or.inl (by simp)⟩
  exact List.mem_replicate.mpr ⟨by omega, rfl⟩

theorem liveInv_run [Inhabited σ] (S : Solver σ) (start : σ) (hpos : 1 ≤ S.numFaces)
    (hno : ∀ steps, ValidPath S steps → S.isCubeSolved (replay S start steps) = false)
    (numThreads : Nat) (hT : 1 ≤ numThreads) (rank numProcesses : Int)
    (hseed : seedsRoot rank numProcesses = true) (sched : List Nat) :
    LiveInv S (run S (initState start numThreads rank numProcesses) sched) := by
  have h := run_invariant S (fun s => PairedInv S start s ∧ LiveInv S s)
    (fun s t h => ⟨pairedInv_step S start s t h.1, liveInv_step S start hpos hno s t h.1 h.2⟩)
    (initState start numThreads rank numProcesses)
    ⟨pairedInv_init S start numThreads rank numProcesses,
      liveInv_init S start numThreads hT rank numProcesses hseed⟩ sched
  exact h.2

theorem not_terminated_of_liveInv (S : Solver σ) (s : State σ) (h : LiveInv S s) :
    ¬ s.terminated := by
  intro ht
  obtain ⟨w, hw, hne⟩ := h.2.1
  exact hne (ht w hw)

theorem idleInv_step (S : Solver σ) (s : State σ) (t : Nat) (h : IdleInv s) :
    IdleInv (step S s t) := by
  obtain ⟨hq, hs, hp, hw⟩ := h
  apply step_cases
  · exact fun _ => ⟨hq, hs, hp, hw⟩
  · intro _ _ _
    exact ⟨hq, hs, hp, forall_mem_set t hw (Or.inr rfl)⟩
  · intro _ _ _ _ _ _
    exact ⟨hq, hs, hp, hw⟩
  · intro cube rest _ _ hqe _ _
    rw [hq] at hqe; cases hqe
  all_goals
    intros
    rename_i hwt _
    rcases hw _ (mem_of_getElem?_eq_some hwt) with h1 | h1 <;> cases h1

theorem idleInv_run [Inhabited σ] (S : Solver σ) (start : σ) (numThreads : Nat)
    (rank numProcesses : Int) (hseed : seedsRoot rank numProcesses = false)
    (sched : List Nat) :
    IdleInv (run S (initState start numThreads rank numProcesses) sched) := by
  apply run_invariant S IdleInv (fun s t h => idleInv_step S s t h)
  unfold initState
  simp only [hseed]
  exact ⟨rfl, rfl, rfl, fun w hw => Or.inl (List.eq_of_mem_replicate hw)⟩

end Live

/-! ## A single worker: dequeue order -/

section Order

variable {σ : Type}

end Order

/-! ## A single worker: the search level by level -/

section Solo

variable {σ : Type}

end Solo

/-! ## Any number of workers: no steps list is pushed twice -/

section Nodup

variable {σ : Type}

theorem getElem?_set_cases {α : Type} {l : List α} {t i : Nat} {x w : α}
    (h : (l.set t x)[i]? = some w) : (i = t ∧ w = x) ∨ (i ≠ t ∧ l[i]? = some w) := by
  rw [List.getElem?_set] at h
  by_cases hti : t = i
  · subst hti
    simp only [if_true] at h
    split at h
    · exact Or.inl ⟨rfl, (Option.some.inj h).symm⟩
    · cases h
  · simp only [hti, if_false] at h
    exact Or.inr ⟨Ne.symm hti, h⟩

theorem concat_inj {α : Type} {p q : List α} {a b : α} (h : p ++ [a] = q ++ [b]) :
    p = q ∧ a = b := by
  obtain ⟨h1, h2⟩ := List.append_inj' h rfl
  exact ⟨h1, by simpa using h2⟩

/-- Replacing worker `t` by one that holds nothing keeps the facts about held
entries. -/
theorem nodupInv_release (s : State σ) (t : Nat) (x : Worker σ) (hx : x.held = none)
    (h : NodupInv s) : NodupInv { s with workers := s.workers.set t x } := by
  obtain ⟨h0, h1, h2, h3a, h3b, h4q, h4w, h5⟩ := h
  refine ⟨h0, h1, h2, ?_, ?_, h4q, ?_, h5⟩
  · intro i w e hw he
    rcases getElem?_set_cases hw with ⟨_, rfl⟩ | ⟨_, hw'⟩
    · rw [hx] at he; cases he
    · exact h3a i w e hw' he
  · intro i j w w' e e' hij hw hw' he he'
    rcases getElem?_set_cases hw with ⟨_, rfl⟩ | ⟨_, hw1⟩
    · rw [hx] at he; cases he
    · rcases getElem?_set_cases hw' with ⟨_, rfl⟩ | ⟨_, hw2⟩
      · rw [hx] at he'; cases he'
      · exact h3b i j w w' e e' hij hw1 hw2 he he'
  · intro i w e hw he
    rcases getElem?_set_cases hw with ⟨_, rfl⟩ | ⟨_, hw'⟩
    · rw [hx] at he; cases he
    · exact h4w i w e hw' he

theorem nodupInv_step (S : Solver σ) (s : State σ) (t : Nat) (h : NodupInv s) :
    NodupInv (step S s t) := by
  have hfull := h
  obtain ⟨h0, h1, h2, h3a, h3b, h4q, h4w, h5⟩ := h
  apply step_cases
  · exact fun _ => hfull
  · intro _ _ _
    exact nodupInv_release s t Worker.done rfl hfull
  · intro _ _ _ _ _ _
    exact hfull
  · intro cube rest _ hwt hqe _ _
    obtain ⟨x, xs, hsq⟩ : ∃ x xs, s.stepQueue = x :: xs := by
      cases hs : s.stepQueue with
      | nil => rw [hqe, hs] at h0; cases h0
      | cons x xs => exact ⟨x, xs, rfl⟩
    rw [hsq] at h2 h4q
    have hnd := h1
    rw [h2] at hnd
    have hxnot : x ∉ s.dequeued.map Prod.snd := by
      intro hx
      exact (List.nodup_append.mp hnd).2.2 hx (List.mem_cons_self _ _)
    unfold NodupInv
    simp only [hsq, List.tail_cons, List.headD_cons, List.map_append, List.map_cons,
      List.map_nil]
    refine ⟨?_, h1, ?_, ?_, ?_, ?_, ?_, ?_⟩
    · rw [hqe, hsq] at h0
      simpa using h0
    · rw [h2]; simp
    · intro i w e hw he
      rcases getElem?_set_cases hw with ⟨_, rfl⟩ | ⟨_, hw'⟩
      · simp only [Worker.held, Option.some.injEq] at he
        subst he
        simp
      · exact List.mem_append_left _ (h3a i w e hw' he)
    · intro i j w w' e e' hij hw hw' he he'
      rcases getElem?_set_cases hw with ⟨hi, rfl⟩ | ⟨hi, hw1⟩
      · rcases getElem?_set_cases hw' with ⟨hj, rfl⟩ | ⟨_, hw2⟩
        · exact absurd (hi.trans hj.symm) hij
        · simp only [Worker.held, Option.some.injEq] at he
          subst he
          intro heq
          simp only at heq
          exact hxnot (heq ▸ h3a j w' e' hw2 he')
      · rcases getElem?_set_cases hw' with ⟨_, rfl⟩ | ⟨_, hw2⟩
        · simp only [Worker.held, Option.some.injEq] at he'
          subst he'
          intro heq
          simp only at heq
          exact hxnot (heq ▸ h3a i w e hw1 he)
        · exact h3b i j w w' e e' hij hw1 hw2 he he'
    · intro p hp g
      exact h4q p (List.mem_cons_of_mem _ hp) g
    · intro i w e hw he g hg
      rcases getElem?_set_cases hw with ⟨_, rfl⟩ | ⟨_, hw'⟩
      · simp only [Worker.held, Option.some.injEq] at he
        subst he
        exact absurd hg (h4q x (List.mem_cons_self _ _) g)
      · exact h4w i w e hw' he g hg
    · intro y g hy
      exact List.mem_append_left _ (h5 y g hy)
  · intro cube steps rotations _ _ _
    exact nodupInv_release { s with
      solutionCube := cube, solutionSteps := steps, rotationSteps := rotations,
      solved := true } t Worker.done rfl hfull
  · intro cube steps rotations _ hwt _
    refine ⟨h0, h1, h2, ?_, ?_, h4q, ?_, h5⟩
    · intro i w e hw he
      rcases getElem?_set_cases hw with ⟨rfl, rfl⟩ | ⟨_, hw'⟩
      · exact h3a i _ e hwt he
      · exact h3a i w e hw' he
    · intro i j w w' e e' hij hw hw' he he'
      rcases getElem?_set_cases hw with ⟨rfl, rfl⟩ | ⟨_, hw1⟩
      · rcases getElem?_set_cases hw' with ⟨hj, rfl⟩ | ⟨_, hw2⟩
        · exact absurd hj.symm hij
        · exact h3b i j _ w' e e' hij hwt hw2 he he'
      · rcases getElem?_set_cases hw' with ⟨rfl, rfl⟩ | ⟨_, hw2⟩
        · exact h3b i j w _ e e' hij hw1 hwt he he'
        · exact h3b i j w w' e e' hij hw1 hw2 he he'
    · intro i w e hw he g hg
      rcases getElem?_set_cases hw with ⟨rfl, rfl⟩ | ⟨_, hw'⟩
      · exact h4w i _ e hwt he g hg
      · exact h4w i w e hw' he g hg
  · intro cube steps rotations face _ hwt hf
    have hheld : (Worker.expanding cube steps rotations face).held = some (cube, steps) := rfl
    have hdeq : steps ∈ s.dequeued.map Prod.snd := h3a t _ _ hwt hheld
    have hnew : steps ++ [face] ∉ s.pushed.map Prod.snd := by
      intro hm
      have := h4w t _ _ hwt hheld face hm
      simp only [Worker.nextFace] at this
      omega
    have hnd := h1
    rw [h2] at hnd
    have hdisj := (List.nodup_append.mp hnd).2.2
    unfold NodupInv
    simp only [List.map_append, List.map_cons, List.map_nil]
    refine ⟨by simp [h0], ?_, by rw [h2, List.append_assoc], ?_, ?_, ?_, ?_, ?_⟩
    · rw [List.nodup_append]
      refine ⟨h1, List.nodup_singleton _, ?_⟩
      intro a ha hb
      simp only [List.mem_singleton] at hb
      subst hb
      exact hnew ha
    · intro i w e hw he
      rcases getElem?_set_cases hw with ⟨rfl, rfl⟩ | ⟨_, hw'⟩
      · simp only [Worker.held, Option.some.injEq] at he
        subst he
        exact hdeq
      · exact h3a i w e hw' he
    · intro i j w w' e e' hij hw hw' he he'
      rcases getElem?_set_cases hw with ⟨rfl, rfl⟩ | ⟨_, hw1⟩
      · rcases getElem?_set_cases hw' with ⟨hj, rfl⟩ | ⟨_, hw2⟩
        · exact absurd hj.symm hij
        · simp only [Worker.held, Option.some.injEq] at he
          subst he
          exact h3b i j _ w' _ e' hij hwt hw2 hheld he'
      · rcases getElem?_set_cases hw' with ⟨rfl, rfl⟩ | ⟨_, hw2⟩
        · simp only [Worker.held, Option.some.injEq] at he'
          subst he'
          exact h3b i j w _ e _ hij hw1 hwt he hheld
        · exact h3b i j w w' e e' hij hw1 hw2 he he'
    · intro p hp g hm
      simp only [List.mem_append, List.mem_singleton] at hp hm
      rcases hp with hp | rfl
      · rcases hm with hm | hm
        · exact h4q p hp g hm
        · obtain ⟨rfl, _⟩ := concat_inj hm
          exact hdisj hdeq hp
      · rcases hm with hm | hm
        · have := h5 _ g hm
          rw [h2] at hnew
          exact hnew (List.mem_append_left _ this)
        · have := congrArg List.length hm
          simp at this
    · intro i w e hw he g hm
      simp only [List.mem_append, List.mem_singleton] at hm
      rcases getElem?_set_cases hw with ⟨rfl, rfl⟩ | ⟨hi, hw'⟩
      · simp only [Worker.held, Option.some.injEq] at he
        subst he
        simp only [Worker.nextFace]
        rcases hm with hm | hm
        · have := h4w i _ _ hwt hheld g hm
          simp only [Worker.nextFace] at this
          omega
        · obtain ⟨_, rfl⟩ := concat_inj hm
          omega
      · rcases hm with hm | hm
        · exact h4w i w e hw' he g hm
        · obtain ⟨hp, _⟩ := concat_inj hm
          exact absurd hp (h3b i t w _ e _ hi hw' hwt he hheld)
    · intro y g hm
      simp only [List.mem_append, List.mem_singleton] at hm
      rcases hm with hm | hm
      · exact h5 y g hm
      · obtain ⟨rfl, _⟩ := concat_inj hm
        exact hdeq
  · intro cube steps rotations face _ _ _
    exact nodupInv_release s t Worker.top rfl hfull

theorem nodupInv_init [Inhabited σ] (start : σ) (numThreads : Nat)
    (rank numProcesses : Int) :
    NodupInv (initState start numThreads rank numProcesses) := by
  have hw : ∀ (i : Nat) (w : Worker σ),
      (List.replicate numThreads (Worker.top : Worker σ))[i]? = some w → w.held = none := by
    intro i w h
    rw [List.eq_of_mem_replicate (mem_of_getElem?_eq_some h)]
    rfl
  unfold initState
  by_cases hseed : seedsRoot rank numProcesses = true
  · simp only [hseed, if_true]
    refine ⟨rfl, by simp, by simp, ?_, ?_, ?_, ?_, ?_⟩
    · intro i w e h he
      rw [hw i w h] at he; cases he
    · intro i j w w' e e' _ h _ he
      rw [hw i w h] at he; cases he
    · intro p hp g hm
      simp at hm
    · intro i w e h he
      rw [hw i w h] at he; cases he
    · intro x g hm
      simp at hm
  · simp only [hseed]
    refine ⟨rfl, by simp, by simp, ?_, ?_, ?_, ?_, ?_⟩
    · intro i w e h he
      rw [hw i w h] at he; cases he
    · intro i j w w' e e' _ h _ he
      rw [hw i w h] at he; cases he
    · intro p hp
      cases hp
    · intro i w e h he
      rw [hw i w h] at he; cases he
    · intro x g hm
      simp at hm

theorem nodupInv_run [Inhabited σ] (S : Solver σ) (start : σ) (numThreads : Nat)
    (rank numProcesses : Int) (sched : List Nat) :
    NodupInv (run S (initState start numThreads rank numProcesses) sched) :=
  run_invariant S NodupInv (fun s t h => nodupInv_step S s t h) _
    (nodupInv_init start numThreads rank numProcesses) sched

end Nodup

/-! ## The properties -/

section Claims

variable {σ : Type}

/-- C1 (round trip): in every state of every run of the worker loop, for any
number of threads and any move function, `q` and `stepQueue` have the same
length, every queued entry and every entry ever pushed is the start cube with
its steps replayed, and a recorded solution replays to `solutionCube`, which is
solved. -/
theorem solveCube_roundtrip [Inhabited σ] (S : Solver σ) (startCube : σ)
    (numThreads : Nat) (rank numProcesses : Int) (sched : List Nat) :
    (run S (initState startCube numThreads rank numProcesses) sched).q.length
      = (run S (initState startCube numThreads rank numProcesses) sched).stepQueue.length ∧
    (∀ e ∈ List.zip (run S (initState startCube numThreads rank numProcesses) sched).q
        (run S (initState startCube numThreads rank numProcesses) sched).stepQueue,
      e.1 = replay S startCube e.2) ∧
    (∀ e ∈ (run S (initState startCube numThreads rank numProcesses) sched).pushed,
      e.1 = replay S startCube e.2) ∧
    ((run S (initState startCube numThreads rank numProcesses) sched).solved = true →
      replay S startCube
          (run S (initState startCube numThreads rank numProcesses) sched).solutionSteps
        = (run S (initState startCube numThreads rank numProcesses) sched).solutionCube ∧
      S.isCubeSolved
        (run S (initState startCube numThreads rank numProcesses) sched).solutionCube
        = true) := by
  obtain ⟨hq, _, hp, _, hs⟩ := pairedInv_run S startCube numThreads rank numProcesses sched
  obtain ⟨hlen, hzip⟩ := List.forall₂_iff_zip.mp hq
  refine ⟨hlen, ?_, fun e he => (hp e he).1, fun hsolved => ?_⟩
  · rintro ⟨c, p⟩ he
    exact (hzip he).1
  · obtain ⟨hok, hsv⟩ := hs hsolved
    exact ⟨hok.1.symm, hsv⟩

/-- C3 (already solved): when the start cube is solved, the pool has at least
one thread and the queue is seeded, then in every state of every run nothing
but the root has been pushed, a recorded solution has no steps and is the start
cube, a pool that has stopped has recorded it, and as soon as every worker has
been scheduled twice the pool has stopped. -/
theorem solveCube_already_solved [Inhabited σ] (S : Solver σ) (startCube : σ)
    (hsolved : S.isCubeSolved startCube = true) (numThreads : Nat) (hT : 1 ≤ numThreads)
    (rank numProcesses : Int) (hseed : seedsRoot rank numProcesses = true)
    (sched : List Nat) :
    (run S (initState startCube numThreads rank numProcesses) sched).pushed
      = [(startCube, [])] ∧
    ((run S (initState startCube numThreads rank numProcesses) sched).solved = true →
      (run S (initState startCube numThreads rank numProcesses) sched).solutionSteps = [] ∧
      (run S (initState startCube numThreads rank numProcesses) sched).solutionCube
        = startCube) ∧
    ((run S (initState startCube numThreads rank numProcesses) sched).terminated →
      (run S (initState startCube numThreads rank numProcesses) sched).solved = true) ∧
    ((∀ t, t < numThreads → 2 ≤ sched.count t) →
      (run S (initState startCube numThreads rank numProcesses) sched).terminated) := by
  obtain ⟨_, hp, hw, hs, hshape⟩ :=
    solvedRootInv_run S startCube hsolved numThreads rank numProcesses hseed sched
  have hlen : (run S (initState startCube numThreads rank numProcesses) sched).workers.length
      = numThreads := by
    rw [run_workers_length]
    simp [initState]
  refine ⟨hp, hs, ?_, ?_⟩
  · intro hterm
    rcases hshape with ⟨_, _, _, _, hall⟩ | ⟨_, hsv | ⟨w, hwm, r, rfl⟩⟩
    · exfalso
      have h0 : 0 < (run S (initState startCube numThreads rank numProcesses)
          sched).workers.length := by omega
      have hm := List.getElem_mem h0
      have h1 := hall _ hm
      have h2 := hterm _ hm
      rw [h1] at h2
      cases h2
    · exact hsv
    · have := hterm _ hwm
      cases this
  · intro hall
    apply terminated_of_windDown sched _
      (windDown_run S startCube hsolved numThreads rank numProcesses hseed sched)
    intro t ht
    exact hall t (by omega)

/-- C3 at the mockup: `main` runs `solveCube` on `initCube()`, which is solved,
with four threads; after the schedule `0,0,1,1,2,2,3,3` the pool has stopped. -/
theorem solveCube_already_solved_witness :
    mockSolver.isCubeSolved initCube = true ∧ 1 ≤ 4 ∧ seedsRoot 0 1 = true ∧
    (run mockSolver (initState initCube 4 0 1) [0, 0, 1, 1, 2, 2, 3, 3]).pushed
      = [(initCube, [])] ∧
    (run mockSolver (initState initCube 4 0 1) [0, 0, 1, 1, 2, 2, 3, 3]).terminated ∧
    (run mockSolver (initState initCube 4 0 1) [0, 0, 1, 1, 2, 2, 3, 3]).solved = true ∧
    (run mockSolver (initState initCube 4 0 1) [0, 0, 1, 1, 2, 2, 3, 3]).solutionSteps
      = [] := by
  have hs : mockSolver.isCubeSolved initCube = true := by
    rw [show mockSolver.isCubeSolved = isSolved from rfl]
    exact isSolved_initCube
  have h := solveCube_already_solved mockSolver initCube hs 4
    (by decide) 0 1 (by decide) [0, 0, 1, 1, 2, 2, 3, 3]
  have hterm := h.2.2.2 (by
    intro t ht
    have : t = 0 ∨ t = 1 ∨ t = 2 ∨ t = 3 := by omega
    rcases this with rfl | rfl | rfl | rfl <;> decide)
  have hsv := h.2.2.1 hterm
  exact ⟨hs, by decide, by decide, h.1, hterm, hsv, (h.2.1 hsv).1⟩

/-- C4 (`isCubeSolved` is the solved predicate): on a cube with at least one
face whose faces are all `size × size` grids, `size ≥ 1`, `isCubeSolved` returns
true exactly when every face holds a single colour. It is a function of the
cube alone and returns nothing but the Boolean. -/
theorem isCubeSolved_iff_uniform (cube : Cube) (size : Nat) (h : cube.WellFormed size) :
    isCubeSolved cube = true ↔
      ∀ face ∈ cube.faces, ∃ color : Int, ∀ row ∈ face, ∀ x ∈ row, x = color :=
  isCubeSolved_iff_mem h

/-- C4 at two concrete cubes: `solvedCube` passes, `mixedCube` does not. -/
theorem isCubeSolved_iff_uniform_witness :
    solvedCube.WellFormed 2 ∧
    (isCubeSolved solvedCube = true ↔
      ∀ face ∈ solvedCube.faces, ∃ color : Int, ∀ row ∈ face, ∀ x ∈ row, x = color) ∧
    isCubeSolved solvedCube = true ∧ isCubeSolved mixedCube = false :=
  ⟨by unfold Cube.WellFormed; decide,
    isCubeSolved_iff_uniform solvedCube 2 (by unfold Cube.WellFormed; decide),
    by decide, by decide⟩

/-- C5 as stated fails: with one worker on `mixedCube`, the fourth step pushes
the turn of the uniform face 1, which is the root cube again. -/
theorem solveCube_pushes_state_twice :
    ¬ ((run (cubeSolver mixedCube) (initState mixedCube 1 0 1) [0, 0, 0, 0]).pushed.map
      Prod.fst).Nodup := by
  decide

/-- C5 (amended): in every run, for any number of threads, no two entries
pushed to `q`/`stepQueue` carry the same steps list. -/
theorem solveCube_pushes_path_once [Inhabited σ] (S : Solver σ) (startCube : σ)
    (numThreads : Nat) (rank numProcesses : Int) (sched : List Nat) :
    ((run S (initState startCube numThreads rank numProcesses) sched).pushed.map
      Prod.snd).Nodup :=
  (nodupInv_run S startCube numThreads rank numProcesses sched).2.1

/-- C6: with one process and one thread on `solvedCube` the process has found
the root as its solution, and the value `solveCube` returns on rank 0 is the
empty cube; whatever was gathered, the cube returned and the cube sent to each
rank is the default-constructed one. -/
theorem solveCube_returns_empty_cube :
    (run (cubeSolver solvedCube) (initState solvedCube 1 0 1) [0, 0]).terminated ∧
    (run (cubeSolver solvedCube) (initState solvedCube 1 0 1) [0, 0]).solved = true ∧
    (candidateOf (run (cubeSolver solvedCube) (initState solvedCube 1 0 1)
      [0, 0])).solutionCube = solvedCube ∧
    (candidateOf (run (cubeSolver solvedCube) (initState solvedCube 1 0 1)
      [0, 0])).solutionSteps = [] ∧
    solveCubeRoot (candidateOf (run (cubeSolver solvedCube) (initState solvedCube 1 0 1)
      [0, 0])) [] = ⟨[]⟩ ∧
    solveCubeRoot (candidateOf (run (cubeSolver solvedCube) (initState solvedCube 1 0 1)
      [0, 0])) [] ≠ solvedCube ∧
    ∀ (own : Candidate Cube) (received : List (Candidate Cube)) (i : Nat),
      solveCubeRoot own received = ⟨[]⟩ ∧
      (sentToRank (gather own received) i).1 = ⟨[]⟩ := by
  refine ⟨?_, by decide, by decide, by decide, rfl, by decide, fun _ _ _ => ⟨rfl, rfl⟩⟩
  have hw : (run (cubeSolver solvedCube) (initState solvedCube 1 0 1) [0, 0]).workers
      = [Worker.done] := by decide
  intro w hwm
  rw [hw] at hwm
  simpa using hwm

/-- C7: on `mixedCube`, from which no solved cube can be reached and only four
cubes can be reached at all, the pool never stops: in every state of every run
with one thread `solved` is false and the worker has not left the loop. -/
theorem solveCube_never_stops_on_mixedCube :
    (∀ steps, isCubeSolved (replay (cubeSolver mixedCube) mixedCube steps) = false) ∧
    Set.Finite {c | ∃ steps, ValidPath (cubeSolver mixedCube) steps ∧
      replay (cubeSolver mixedCube) mixedCube steps = c} ∧
    ∀ sched,
      (run (cubeSolver mixedCube) (initState mixedCube 1 0 1) sched).solved = false ∧
      ¬ (run (cubeSolver mixedCube) (initState mixedCube 1 0 1) sched).terminated := by
  have hwf : mixedCube.WellFormed 2 := by unfold Cube.WellFormed; decide
  have hno : ∀ steps, isCubeSolved (replay (cubeSolver mixedCube) mixedCube steps) = false := by
    intro steps
    rw [(replay_cubeSolver_wellFormed hwf steps).2]
    decide
  refine ⟨hno, ?_, ?_⟩
  · apply Set.Finite.subset (List.finite_toSet mixedCubeTurns)
    rintro c ⟨steps, hv, rfl⟩
    show replay (cubeSolver mixedCube) mixedCube steps ∈ mixedCubeTurns
    induction steps using List.reverseRecOn with
    | nil => decide
    | append_singleton steps f ih =>
      have hf : f < 6 := hv f (by simp)
      have hin := ih (fun g hg => hv g (List.mem_append_left _ hg))
      rw [replay_concat]
      have hclosed : ∀ c ∈ mixedCubeTurns, ∀ g < 6, rotateFace c g 2 ∈ mixedCubeTurns := by
        decide
      exact hclosed _ hin f hf
  · intro sched
    have hlive := liveInv_run (cubeSolver mixedCube) mixedCube (by decide)
      (fun steps _ => hno steps) 1 (by decide) 0 1 (by decide) sched
    exact ⟨hlive.1, not_terminated_of_liveInv _ _ hlive⟩

/-- C8: with two processes rank 1 computes `startIndex = 0` and seeds the root
as rank 0 does; with two or more processes every rank does. -/
theorem startIndex_zero_on_every_rank :
    startIndex 1 2 = 0 ∧ seedsRoot 1 2 = true ∧ seedsRoot 0 2 = true ∧
    (initState mixedCube 1 1 2).q = [mixedCube] ∧
    ∀ numProcesses rank : Int, 2 ≤ numProcesses →
      startIndex rank numProcesses = 0 ∧ endIndex rank numProcesses = 0 ∧
      seedsRoot rank numProcesses = true := by
  refine ⟨by decide, by decide, by decide, by decide, ?_⟩
  intro numProcesses rank hP
  have hdiv : Int.tdiv 1 numProcesses = 0 := by
    rw [Int.tdiv_eq_ediv (by omega) (by omega)]
    exact Int.ediv_eq_zero_of_lt (by omega) (by omega)
  simp [seedsRoot, startIndex, endIndex, hdiv]

/-- C9 (solvedness is invariant under every move): on a well-formed cube,
`rotateFace` on face `f` reads each cell of face `f` from the position given by
the permutation `quarterTurn`, leaves every other face as it is and does not
change `isCubeSolved`; so the cube reached by any list of moves is solved
exactly when the start cube is, and a solution `solveCube` records has no
steps. -/
theorem rotateFace_keeps_solvedness (cube : Cube) (size : Nat) (h : cube.WellFormed size)
    (f : Nat) (hf : f < cube.faces.length) :
    (∀ i j : Fin size, (rotateFace cube f size).cell f i j
      = cube.cell f (quarterTurn size (i, j)).1 (quarterTurn size (i, j)).2) ∧
    (∀ g, g ≠ f → (rotateFace cube f size).faces.getD g [] = cube.faces.getD g []) ∧
    isCubeSolved (rotateFace cube f size) = isCubeSolved cube ∧
    (∀ steps, isCubeSolved (replay (cubeSolver cube) cube steps) = isCubeSolved cube) ∧
    (∀ numThreads rank numProcesses sched,
      (run (cubeSolver cube) (initState cube numThreads rank numProcesses) sched).solved
        = true →
      (run (cubeSolver cube) (initState cube numThreads rank numProcesses)
        sched).solutionSteps = []) := by
  refine ⟨?_, ?_, isCubeSolved_rotateFace h f, ?_, ?_⟩
  · intro i j
    exact cell_rotateFace_self h hf i.2 j.2
  · intro g hg
    exact faces_rotateFace_ne cube f g size hg
  · intro steps
    exact (replay_cubeSolver_wellFormed h steps).2
  · intro numThreads rank numProcesses sched hsv
    cases hseed : seedsRoot rank numProcesses with
    | false =>
      have := (idleInv_run (cubeSolver cube) cube numThreads rank numProcesses hseed sched).2.1
      rw [this] at hsv
      cases hsv
    | true =>
      have hpair := pairedInv_run (cubeSolver cube) cube numThreads rank numProcesses sched
      obtain ⟨hok, hsol⟩ := hpair.2.2.2.2 hsv
      have hstart : (cubeSolver cube).isCubeSolved cube = true := by
        have h1 : isCubeSolved
            (run (cubeSolver cube) (initState cube numThreads rank numProcesses)
              sched).solutionCube = true := hsol
        have h2 := hok.1
        simp only at h2
        rw [h2, (replay_cubeSolver_wellFormed h _).2] at h1
        exact h1
      exact ((solvedRootInv_run (cubeSolver cube) cube hstart numThreads rank numProcesses
        hseed sched).2.2.2.1 hsv).1

/-- C9 at `mixedCube`, face 0. -/
theorem rotateFace_keeps_solvedness_witness :
    mixedCube.WellFormed 2 ∧ 0 < mixedCube.faces.length ∧
    isCubeSolved (rotateFace mixedCube 0 2) = isCubeSolved mixedCube ∧
    ∀ steps, isCubeSolved (replay (cubeSolver mixedCube) mixedCube steps)
      = isCubeSolved mixedCube :=
  ⟨by unfold Cube.WellFormed; decide, by decide,
    (rotateFace_keeps_solvedness mixedCube 2 (by unfold Cube.WellFormed; decide) 0
      (by decide)).2.2.1,
    (rotateFace_keeps_solvedness mixedCube 2 (by unfold Cube.WellFormed; decide) 0
      (by decide)).2.2.2.1⟩

/-- C10: with one worker on `mixedCube`, after the first iteration (nine
steps) `q` and `stepQueue` hold six entries and `rotationQueue` none, the worker
is back at the loop head and nothing has faulted; its next step finds `q`
non-empty and calls `front()`/`pop()` on the empty `rotationQueue`. -/
theorem rotationQueue_runs_dry :
    (run (cubeSolver mixedCube) (initState mixedCube 1 0 1) (List.replicate 9 0)).q.length
      = 6 ∧
    (run (cubeSolver mixedCube) (initState mixedCube 1 0 1)
      (List.replicate 9 0)).stepQueue.length = 6 ∧
    (run (cubeSolver mixedCube) (initState mixedCube 1 0 1)
      (List.replicate 9 0)).rotationQueue = [] ∧
    (run (cubeSolver mixedCube) (initState mixedCube 1 0 1)
      (List.replicate 9 0)).workers = [Worker.top] ∧
    (run (cubeSolver mixedCube) (initState mixedCube 1 0 1)
      (List.replicate 9 0)).faulted = false ∧
    (run (cubeSolver mixedCube) (initState mixedCube 1 0 1)
      (List.replicate 10 0)).faulted = true := by
  refine ⟨by decide, by decide, by decide, by decide, by decide, by decide⟩

end Claims

end Rubik
